import Mathlib

/-!
Verification of the type-layout calculator specified for the `type-layout`
repository.  The repository's source (`src/lib.rs`) documents, in comments
and worked examples, the size/alignment rules for Rust's default and
`repr(C)` representations; the specified `LayoutCalculator` component
(`computeDefaultLayout` / `computeSequentialLayout`) is described at design
level but not implemented in the sources, so the calculator itself is
modelled here from the specification's algorithm text and checked against
the worked examples recorded in the source comments.
-/

/-- One field (or variant payload) of a composite type: a byte size and a
byte alignment. -/
structure FieldDescriptor where
  size : Nat
  alignment : Nat
deriving DecidableEq

/-- Modelled from the spec: the error taxonomy of the layout calculator
(the calculator itself is absent from the sources).  The only error is
`invalidDescriptor`, for malformed input. -/
inductive LayoutError where
  | invalidDescriptor
deriving DecidableEq

/-- A composite type to be laid out: a struct with ordered fields, or a
tagged union with one payload descriptor per variant plus a caller-supplied
discriminant descriptor. -/
inductive TypeDescriptor where
  | struct (fields : List FieldDescriptor)
  | taggedUnion (variants : List FieldDescriptor) (discriminant : FieldDescriptor)
deriving DecidableEq

/-- Computed layout: overall size, overall alignment, and per-field byte
offsets (meaningful for the sequential strategy). -/
structure LayoutResult where
  size : Nat
  alignment : Nat
  offsets : List Nat
deriving DecidableEq

/-- Padding needed to round `off` up to a multiple of `a`: the spec's
`(-offset) mod alignment`, written on naturals. -/
def pad (off a : Nat) : Nat := (a - off % a) % a

/-- `off` rounded up to the nearest multiple of `a` (for `a > 0`). -/
def roundUp (off a : Nat) : Nat := off + pad off a

/-- Executable power-of-two test (`2 ^ k = n` has `k < n + 1` whenever it
holds, so searching `range (n+1)` is exhaustive). -/
def isPow2 (n : Nat) : Bool := (List.range (n + 1)).any (fun k => n == 2 ^ k)

/-- A field's alignment is well-formed when it is a power of two (which in
particular rules out alignment `0`). -/
def validAlign (f : FieldDescriptor) : Bool := isPow2 f.alignment

/-- All field descriptors carried by a type descriptor, the tagged-union
discriminant included. -/
def allFieldDescriptors : TypeDescriptor → List FieldDescriptor
  | .struct fs => fs
  | .taggedUnion vs d => d :: vs

/-- Modelled from the spec: the pure validation pass run before any
computation.  A descriptor is rejected when some field descriptor has an
alignment that is zero or not a power of two, or when a tagged union has no
variants. -/
def validate (D : TypeDescriptor) : Bool :=
  (allFieldDescriptors D).all validAlign &&
    (match D with
     | .struct _ => true
     | .taggedUnion vs _ => !vs.isEmpty)

/-- Maximum alignment over a field list, `1` for the empty list. -/
def maxAlign : List FieldDescriptor → Nat
  | [] => 1
  | f :: fs => max f.alignment (maxAlign fs)

/-- Maximum size over a field list, `0` for the empty list. -/
def maxSize : List FieldDescriptor → Nat
  | [] => 0
  | f :: fs => max f.size (maxSize fs)

/-- Sum of the sizes of a field list. -/
def sumSizes : List FieldDescriptor → Nat
  | [] => 0
  | f :: fs => f.size + sumSizes fs

/-- Sequential layout offsets: starting from running offset `off`, each
field's offset is the running offset rounded up to that field's alignment,
after which the running offset advances by the field's size. -/
def fieldOffsets (off : Nat) : List FieldDescriptor → List Nat
  | [] => []
  | f :: fs =>
      roundUp off f.alignment :: fieldOffsets (roundUp off f.alignment + f.size) fs

/-- The running offset after laying all fields out sequentially from `off`. -/
def endOffset (off : Nat) : List FieldDescriptor → Nat
  | [] => off
  | f :: fs => endOffset (roundUp off f.alignment + f.size) fs

/-- Insert a field into a list kept in descending-alignment order. -/
def insertByAlign (f : FieldDescriptor) : List FieldDescriptor → List FieldDescriptor
  | [] => [f]
  | g :: gs => if g.alignment < f.alignment then f :: g :: gs else g :: insertByAlign f gs

/-- Sort fields by descending alignment (the spec's reference packing for
the default strategy). -/
def sortByAlignDesc : List FieldDescriptor → List FieldDescriptor
  | [] => []
  | f :: fs => insertByAlign f (sortByAlignDesc fs)

/-- Modelled from the spec: `computeSequentialLayout`, the deterministic
C-compatible strategy (absent from the sources; the source documents it in
the `repr(C)` comments).  Struct fields are laid out in declared order with
a running offset; a tagged union is laid out as the discriminant followed
by a union region of the maximal payload size and alignment; the final size
is rounded up to the result alignment. -/
def computeSequentialLayout (D : TypeDescriptor) : Except LayoutError LayoutResult :=
  if validate D then
    match D with
    | .struct fs =>
        let al := maxAlign fs
        .ok ⟨roundUp (endOffset 0 fs) al, al, fieldOffsets 0 fs⟩
    | .taggedUnion vs d =>
        let u : FieldDescriptor := ⟨maxSize vs, maxAlign vs⟩
        let al := maxAlign [d, u]
        .ok ⟨roundUp (endOffset 0 [d, u]) al, al, fieldOffsets 0 [d, u]⟩
  else .error .invalidDescriptor

/-- Modelled from the spec: `computeDefaultLayout`, the compiler-chosen
strategy (absent from the sources; the source documents it in the default
representation comments).  Struct fields are packed by the reference
packing (sorted by descending alignment, then sequential); a single-variant
tagged union elides the discriminant; a multi-variant tagged union costs
the maximal payload rounded to the result alignment plus space for the
discriminant tag. -/
def computeDefaultLayout (D : TypeDescriptor) : Except LayoutError LayoutResult :=
  if validate D then
    match D with
    | .struct fs =>
        let sorted := sortByAlignDesc fs
        let al := maxAlign fs
        .ok ⟨roundUp (endOffset 0 sorted) al, al, fieldOffsets 0 sorted⟩
    | .taggedUnion [v] _ =>
        .ok ⟨roundUp v.size v.alignment, v.alignment, [0]⟩
    | .taggedUnion vs d =>
        let al := max (maxAlign vs) d.alignment
        .ok ⟨roundUp (maxSize vs) al + roundUp d.size al, al, []⟩
  else .error .invalidDescriptor

/-! ### Arithmetic facts about `pad` and `roundUp` -/

theorem pad_lt {a : Nat} (h : 0 < a) (off : Nat) : pad off a < a :=
  Nat.mod_lt _ h

theorem le_roundUp (off a : Nat) : off ≤ roundUp off a :=
  Nat.le_add_right _ _

theorem roundUp_lt {a : Nat} (h : 0 < a) (off : Nat) : roundUp off a < off + a := by
  have := pad_lt h off
  unfold roundUp
  omega

theorem roundUp_zero (a : Nat) : roundUp 0 a = 0 := by
  unfold roundUp pad
  simp [Nat.mod_self]

theorem roundUp_mod {a : Nat} (h : 0 < a) (off : Nat) : roundUp off a % a = 0 := by
  by_cases h0 : off % a = 0
  · unfold roundUp pad
    rw [h0]
    simp [Nat.mod_self, h0]
  · have hm : off % a < a := Nat.mod_lt _ h
    have hp : pad off a = a - off % a := Nat.mod_eq_of_lt (by omega)
    have hd := Nat.div_add_mod off a
    have he : roundUp off a = a * (off / a + 1) := by
      unfold roundUp
      rw [hp, Nat.mul_add, Nat.mul_one]
      omega
    rw [he]
    exact Nat.mul_mod_right _ _

theorem roundUp_min {a m : Nat} (h : 0 < a) (hmod : m % a = 0) {off : Nat}
    (hge : off ≤ m) : roundUp off a ≤ m := by
  have h1 := roundUp_mod h off
  have h2 := roundUp_lt h off
  by_contra hc
  push_neg at hc
  have hd1 : a ∣ m := Nat.dvd_of_mod_eq_zero hmod
  have hd2 : a ∣ roundUp off a := Nat.dvd_of_mod_eq_zero h1
  have hd3 : a ∣ roundUp off a - m := Nat.dvd_sub' hd2 hd1
  have hpos : 0 < roundUp off a - m := by omega
  have := Nat.le_of_dvd hpos hd3
  omega

theorem roundUp_eq_of_mod {off a : Nat} (h : off % a = 0) : roundUp off a = off := by
  unfold roundUp pad
  rw [h]
  simp [Nat.mod_self]

/-! ### Facts about `isPow2` and validation -/

theorem isPow2_iff {n : Nat} : isPow2 n = true ↔ ∃ k, n = 2 ^ k := by
  unfold isPow2
  rw [List.any_eq_true]
  constructor
  · rintro ⟨k, _, he⟩
    exact ⟨k, by simpa using he⟩
  · rintro ⟨k, rfl⟩
    refine ⟨k, List.mem_range.mpr ?_, by simp⟩
    have := Nat.lt_two_pow k
    omega

theorem validAlign_pos {f : FieldDescriptor} (h : validAlign f = true) :
    0 < f.alignment := by
  obtain ⟨k, hk⟩ := isPow2_iff.mp h
  have : 0 < 2 ^ k := Nat.pos_pow_of_pos k (by omega)
  omega

theorem validate_all {D : TypeDescriptor} (h : validate D = true) :
    ∀ f ∈ allFieldDescriptors D, validAlign f = true := by
  unfold validate at h
  rw [Bool.and_eq_true] at h
  exact List.all_eq_true.mp h.1

/-! ### Facts about `maxAlign`, `maxSize`, `sumSizes` -/

theorem one_le_maxAlign (fs : List FieldDescriptor) : 1 ≤ maxAlign fs := by
  induction fs with
  | nil => simp [maxAlign]
  | cons f fs ih =>
      unfold maxAlign
      omega

theorem le_maxAlign {f : FieldDescriptor} {fs : List FieldDescriptor} (h : f ∈ fs) :
    f.alignment ≤ maxAlign fs := by
  induction fs with
  | nil => cases h
  | cons g gs ih =>
      unfold maxAlign
      rcases List.mem_cons.mp h with rfl | hm
      · omega
      · have := ih hm
        omega

theorem le_maxSize {f : FieldDescriptor} {fs : List FieldDescriptor} (h : f ∈ fs) :
    f.size ≤ maxSize fs := by
  induction fs with
  | nil => cases h
  | cons g gs ih =>
      unfold maxSize
      rcases List.mem_cons.mp h with rfl | hm
      · omega
      · have := ih hm
        omega

theorem maxAlign_mem {fs : List FieldDescriptor} (hne : fs ≠ [])
    (h1 : ∀ f ∈ fs, 1 ≤ f.alignment) :
    maxAlign fs ∈ fs.map (fun f => f.alignment) := by
  induction fs with
  | nil => exact absurd rfl hne
  | cons f fs ih =>
      by_cases hfs : fs = []
      · subst hfs
        have hf := h1 f (List.mem_cons_self _ _)
        simp only [maxAlign, List.map_cons, List.map_nil]
        rw [Nat.max_eq_left hf]
        exact List.mem_cons_self _ _
      · have hm := ih hfs (fun g hg => h1 g (List.mem_cons_of_mem _ hg))
        unfold maxAlign
        rcases Nat.le_total f.alignment (maxAlign fs) with hle | hle
        · rw [Nat.max_eq_right hle]
          exact List.mem_cons_of_mem _ hm
        · rw [Nat.max_eq_left hle]
          exact List.mem_cons_self _ _

theorem maxSize_mem {fs : List FieldDescriptor} (hne : fs ≠ []) :
    maxSize fs ∈ fs.map (fun f => f.size) := by
  induction fs with
  | nil => exact absurd rfl hne
  | cons f fs ih =>
      by_cases hfs : fs = []
      · subst hfs
        simp only [maxSize, List.map_cons, List.map_nil]
        rw [Nat.max_eq_left (Nat.zero_le _)]
        exact List.mem_cons_self _ _
      · have hm := ih hfs
        unfold maxSize
        rcases Nat.le_total f.size (maxSize fs) with hle | hle
        · rw [Nat.max_eq_right hle]
          exact List.mem_cons_of_mem _ hm
        · rw [Nat.max_eq_left hle]
          exact List.mem_cons_self _ _

theorem sumSizes_insertByAlign (f : FieldDescriptor) (l : List FieldDescriptor) :
    sumSizes (insertByAlign f l) = f.size + sumSizes l := by
  induction l with
  | nil => rfl
  | cons g gs ih =>
      unfold insertByAlign
      by_cases h : g.alignment < f.alignment
      · rw [if_pos h]
        rfl
      · rw [if_neg h]
        unfold sumSizes
        rw [ih]
        omega

theorem sumSizes_sort (fs : List FieldDescriptor) :
    sumSizes (sortByAlignDesc fs) = sumSizes fs := by
  induction fs with
  | nil => rfl
  | cons f fs ih =>
      show sumSizes (insertByAlign f (sortByAlignDesc fs)) = f.size + sumSizes fs
      rw [sumSizes_insertByAlign, ih]

/-! ### Facts about `fieldOffsets` and `endOffset` -/

theorem fieldOffsets_length (off : Nat) (fs : List FieldDescriptor) :
    (fieldOffsets off fs).length = fs.length := by
  induction fs generalizing off with
  | nil => rfl
  | cons f fs ih =>
      unfold fieldOffsets
      simp [ih]

theorem fieldOffsets_mem_ge {o off : Nat} {fs : List FieldDescriptor}
    (ho : o ∈ fieldOffsets off fs) : off ≤ o := by
  induction fs generalizing off with
  | nil => cases ho
  | cons f fs ih =>
      unfold fieldOffsets at ho
      rcases List.mem_cons.mp ho with rfl | hm
      · exact le_roundUp _ _
      · have h1 := ih hm
        have h2 := le_roundUp off f.alignment
        omega

theorem le_endOffset (off : Nat) (fs : List FieldDescriptor) :
    off + sumSizes fs ≤ endOffset off fs := by
  induction fs generalizing off with
  | nil => simp [endOffset, sumSizes]
  | cons f fs ih =>
      unfold endOffset sumSizes
      have h1 := ih (roundUp off f.alignment + f.size)
      have h2 := le_roundUp off f.alignment
      omega

theorem fieldOffsets_zip_div {fs : List FieldDescriptor}
    (hpos : ∀ f ∈ fs, 0 < f.alignment) (off : Nat) :
    ∀ p ∈ (fieldOffsets off fs).zip fs, p.1 % p.2.alignment = 0 := by
  induction fs generalizing off with
  | nil => intro p hp; cases hp
  | cons f fs ih =>
      intro p hp
      unfold fieldOffsets at hp
      rw [List.zip_cons_cons] at hp
      rcases List.mem_cons.mp hp with rfl | hm
      · exact roundUp_mod (hpos f (List.mem_cons_self _ _)) off
      · exact ih (fun g hg => hpos g (List.mem_cons_of_mem _ hg)) _ p hm

theorem fieldOffsets_pairwise_le (off : Nat) (fs : List FieldDescriptor) :
    (fieldOffsets off fs).Pairwise (fun a b => a ≤ b) := by
  induction fs generalizing off with
  | nil => exact List.Pairwise.nil
  | cons f fs ih =>
      unfold fieldOffsets
      rw [List.pairwise_cons]
      refine ⟨fun o ho => ?_, ih _⟩
      have := fieldOffsets_mem_ge ho
      omega

theorem fieldOffsets_zip_disjoint (off : Nat) (fs : List FieldDescriptor) :
    ((fieldOffsets off fs).zip fs).Pairwise
      (fun p q => p.1 + p.2.size ≤ q.1) := by
  induction fs generalizing off with
  | nil => exact List.Pairwise.nil
  | cons f fs ih =>
      unfold fieldOffsets
      rw [List.zip_cons_cons, List.pairwise_cons]
      refine ⟨fun q hq => ?_, ih _⟩
      have hmem : q.1 ∈ fieldOffsets (roundUp off f.alignment + f.size) fs := by
        rcases q with ⟨o, g⟩
        exact (List.of_mem_zip hq).1
      exact fieldOffsets_mem_ge hmem

theorem fieldOffsets_head (off : Nat) (fs : List FieldDescriptor) :
    (fieldOffsets off fs).head? = fs.head?.map (fun f => roundUp off f.alignment) := by
  cases fs <;> rfl

theorem fieldOffsets_chain (off : Nat) (fs : List FieldDescriptor) :
    List.Chain' (fun p q => q.1 = roundUp (p.1 + p.2.size) q.2.alignment)
      ((fieldOffsets off fs).zip fs) := by
  induction fs generalizing off with
  | nil => exact List.chain'_nil
  | cons f fs ih =>
      cases fs with
      | nil => exact List.chain'_singleton _
      | cons g gs =>
          unfold fieldOffsets
          rw [List.zip_cons_cons]
          unfold fieldOffsets
          rw [List.zip_cons_cons, List.chain'_cons]
          refine ⟨rfl, ?_⟩
          have := ih (roundUp off f.alignment + f.size)
          unfold fieldOffsets at this
          rwa [List.zip_cons_cons] at this

theorem endOffset_last {off : Nat} {fs : List FieldDescriptor} {p : Nat × FieldDescriptor}
    (h : ((fieldOffsets off fs).zip fs).getLast? = some p) :
    endOffset off fs = p.1 + p.2.size := by
  induction fs generalizing off with
  | nil => cases h
  | cons f fs ih =>
      cases fs with
      | nil =>
          unfold fieldOffsets at h
          rw [List.zip_cons_cons] at h
          simp only [List.zip_nil_right, List.getLast?_singleton, Option.some.injEq] at h
          subst h
          rfl
      | cons g gs =>
          unfold fieldOffsets at h
          rw [List.zip_cons_cons] at h
          unfold fieldOffsets at h
          rw [List.zip_cons_cons, List.getLast?_cons_cons] at h
          have := @ih (roundUp off f.alignment + f.size)
          unfold fieldOffsets at this
          rw [List.zip_cons_cons] at this
          exact this h

/-! ### Extraction lemmas for the two strategies -/

theorem computeSequential_struct_ok {fs : List FieldDescriptor} {r : LayoutResult}
    (h : computeSequentialLayout (.struct fs) = .ok r) :
    validate (.struct fs) = true ∧
      r = ⟨roundUp (endOffset 0 fs) (maxAlign fs), maxAlign fs, fieldOffsets 0 fs⟩ := by
  unfold computeSequentialLayout at h
  by_cases hv : validate (.struct fs) = true
  · rw [if_pos hv] at h
    simp only [Except.ok.injEq] at h
    exact ⟨hv, h.symm⟩
  · rw [if_neg hv] at h
    cases h

theorem computeSequential_tu_ok {vs : List FieldDescriptor} {d : FieldDescriptor}
    {r : LayoutResult}
    (h : computeSequentialLayout (.taggedUnion vs d) = .ok r) :
    validate (.taggedUnion vs d) = true ∧
      r = ⟨roundUp (endOffset 0 [d, ⟨maxSize vs, maxAlign vs⟩])
             (maxAlign [d, ⟨maxSize vs, maxAlign vs⟩]),
           maxAlign [d, ⟨maxSize vs, maxAlign vs⟩],
           fieldOffsets 0 [d, ⟨maxSize vs, maxAlign vs⟩]⟩ := by
  unfold computeSequentialLayout at h
  by_cases hv : validate (.taggedUnion vs d) = true
  · rw [if_pos hv] at h
    simp only [Except.ok.injEq] at h
    exact ⟨hv, h.symm⟩
  · rw [if_neg hv] at h
    cases h

theorem computeDefault_struct_ok {fs : List FieldDescriptor} {r : LayoutResult}
    (h : computeDefaultLayout (.struct fs) = .ok r) :
    validate (.struct fs) = true ∧
      r = ⟨roundUp (endOffset 0 (sortByAlignDesc fs)) (maxAlign fs), maxAlign fs,
           fieldOffsets 0 (sortByAlignDesc fs)⟩ := by
  unfold computeDefaultLayout at h
  by_cases hv : validate (.struct fs) = true
  · rw [if_pos hv] at h
    simp only [Except.ok.injEq] at h
    exact ⟨hv, h.symm⟩
  · rw [if_neg hv] at h
    cases h

theorem computeDefault_tu_single_ok {v d : FieldDescriptor} {r : LayoutResult}
    (h : computeDefaultLayout (.taggedUnion [v] d) = .ok r) :
    validate (.taggedUnion [v] d) = true ∧
      r = ⟨roundUp v.size v.alignment, v.alignment, [0]⟩ := by
  unfold computeDefaultLayout at h
  by_cases hv : validate (.taggedUnion [v] d) = true
  · rw [if_pos hv] at h
    simp only [Except.ok.injEq] at h
    exact ⟨hv, h.symm⟩
  · rw [if_neg hv] at h
    cases h

theorem computeDefault_tu_multi_ok {vs : List FieldDescriptor} {d : FieldDescriptor}
    {r : LayoutResult} (hlen : 2 ≤ vs.length)
    (h : computeDefaultLayout (.taggedUnion vs d) = .ok r) :
    validate (.taggedUnion vs d) = true ∧
      r = ⟨roundUp (maxSize vs) (max (maxAlign vs) d.alignment) +
             roundUp d.size (max (maxAlign vs) d.alignment),
           max (maxAlign vs) d.alignment, []⟩ := by
  rcases vs with _ | ⟨a, vs'⟩
  · simp at hlen
  rcases vs' with _ | ⟨b, rest⟩
  · simp at hlen
  unfold computeDefaultLayout at h
  by_cases hv : validate (.taggedUnion (a :: b :: rest) d) = true
  · rw [if_pos hv] at h
    simp only [Except.ok.injEq] at h
    exact ⟨hv, h.symm⟩
  · rw [if_neg hv] at h
    cases h

theorem validate_tu_ne_nil {vs : List FieldDescriptor} {d : FieldDescriptor}
    (h : validate (.taggedUnion vs d) = true) : vs ≠ [] := by
  intro hcontra
  subst hcontra
  simp [validate] at h

theorem zeroOrNotPow_iff {a : Nat} :
    (a = 0 ∨ ¬ ∃ k, a = 2 ^ k) ↔ ¬ ∃ k, a = 2 ^ k := by
  constructor
  · rintro (rfl | hn)
    · rintro ⟨k, hk⟩
      have : 0 < 2 ^ k := Nat.pos_pow_of_pos k (by omega)
      omega
    · exact hn
  · exact Or.inr

theorem computeDefault_error_iff (D : TypeDescriptor) :
    computeDefaultLayout D = .error .invalidDescriptor ↔ validate D = false := by
  constructor
  · intro h
    by_contra hv
    rw [Bool.not_eq_false] at hv
    unfold computeDefaultLayout at h
    rw [if_pos hv] at h
    cases D with
    | struct fs => simp at h
    | taggedUnion vs d =>
        rcases vs with _ | ⟨v, rest⟩
        · simp at h
        · rcases rest with _ | ⟨w, rest'⟩ <;> simp at h
  · intro hv
    unfold computeDefaultLayout
    rw [if_neg (by rw [hv]; exact Bool.false_ne_true)]

theorem computeSequential_error_iff (D : TypeDescriptor) :
    computeSequentialLayout D = .error .invalidDescriptor ↔ validate D = false := by
  constructor
  · intro h
    by_contra hv
    rw [Bool.not_eq_false] at hv
    unfold computeSequentialLayout at h
    rw [if_pos hv] at h
    cases D with
    | struct fs => simp at h
    | taggedUnion vs d => simp at h
  · intro hv
    unfold computeSequentialLayout
    rw [if_neg (by rw [hv]; exact Bool.false_ne_true)]

theorem validate_false_iff (D : TypeDescriptor) :
    validate D = false ↔
      ((∃ f ∈ allFieldDescriptors D, f.alignment = 0 ∨ ¬ ∃ k, f.alignment = 2 ^ k) ∨
        ∃ d, D = .taggedUnion [] d) := by
  cases D with
  | struct fs =>
      simp only [validate, allFieldDescriptors, Bool.and_true]
      constructor
      · intro h
        left
        obtain ⟨f, hf, hval⟩ := List.all_eq_false.mp h
        refine ⟨f, hf, zeroOrNotPow_iff.mpr ?_⟩
        intro hpow
        exact hval (isPow2_iff.mpr hpow)
      · rintro (⟨f, hf, hbad⟩ | ⟨d, hd⟩)
        · refine List.all_eq_false.mpr ⟨f, hf, ?_⟩
          have hn := zeroOrNotPow_iff.mp hbad
          rw [not_exists] at hn
          simp [validAlign, isPow2_iff]
          exact hn
        · cases hd
  | taggedUnion vs d =>
      constructor
      · intro h
        rcases vs with _ | ⟨v, rest⟩
        · exact Or.inr ⟨d, rfl⟩
        · left
          simp only [validate, allFieldDescriptors] at h
          rw [Bool.and_eq_false_iff] at h
          rcases h with h | h
          · obtain ⟨f, hf, hval⟩ := List.all_eq_false.mp h
            refine ⟨f, hf, zeroOrNotPow_iff.mpr ?_⟩
            intro hpow
            exact hval (isPow2_iff.mpr hpow)
          · simp at h
      · rintro (⟨f, hf, hbad⟩ | ⟨d', hd⟩)
        · simp only [validate, allFieldDescriptors]
          rw [Bool.and_eq_false_iff]
          left
          refine List.all_eq_false.mpr ⟨f, hf, ?_⟩
          have hn := zeroOrNotPow_iff.mp hbad
          rw [not_exists] at hn
          simp [validAlign, isPow2_iff]
          exact hn
        · obtain ⟨rfl, -⟩ := TypeDescriptor.taggedUnion.inj hd
          simp [validate]


/-! ### Claim theorems -/

/-- C1: for every valid TypeDescriptor and both strategies
(`computeDefaultLayout` and `computeSequentialLayout`), the returned
LayoutResult satisfies `size % alignment = 0`. -/
theorem C1_size_multiple_of_alignment (D : TypeDescriptor) (r : LayoutResult)
    (h : computeDefaultLayout D = .ok r ∨ computeSequentialLayout D = .ok r) :
    r.size % r.alignment = 0 := by
  rcases h with h | h
  · cases D with
    | struct fs =>
        obtain ⟨hv, rfl⟩ := computeDefault_struct_ok h
        exact roundUp_mod (one_le_maxAlign fs) _
    | taggedUnion vs d =>
        rcases vs with _ | ⟨v, rest⟩
        · have hv : validate (.taggedUnion ([] : List FieldDescriptor) d) = false := by
            simp [validate]
          have := (computeDefault_error_iff (.taggedUnion [] d)).mpr hv
          rw [this] at h
          cases h
        · rcases rest with _ | ⟨w, rest'⟩
          · obtain ⟨hv, rfl⟩ := computeDefault_tu_single_ok h
            have hval := validate_all hv v (by
              show v ∈ allFieldDescriptors (.taggedUnion [v] d)
              simp [allFieldDescriptors])
            exact roundUp_mod (validAlign_pos hval) _
          · obtain ⟨hv, rfl⟩ :=
              computeDefault_tu_multi_ok (by simp) h
            have h1 := one_le_maxAlign (v :: w :: rest')
            have hal : 0 < max (maxAlign (v :: w :: rest')) d.alignment := by
              rcases Nat.le_total (maxAlign (v :: w :: rest')) d.alignment with hle | hle
              · rw [Nat.max_eq_right hle]; omega
              · rw [Nat.max_eq_left hle]; omega
            have ha := roundUp_mod hal (maxSize (v :: w :: rest'))
            have hb := roundUp_mod hal d.size
            show (roundUp _ _ + roundUp _ _) % _ = 0
            rw [Nat.add_mod, ha, hb]
            simp
  · cases D with
    | struct fs =>
        obtain ⟨hv, rfl⟩ := computeSequential_struct_ok h
        exact roundUp_mod (one_le_maxAlign fs) _
    | taggedUnion vs d =>
        obtain ⟨hv, rfl⟩ := computeSequential_tu_ok h
        exact roundUp_mod (one_le_maxAlign [d, ⟨maxSize vs, maxAlign vs⟩]) _

/-- Witness for C1: the sequential layout of `Struct{[{4,4},{8,8}]}` returns
size 16, alignment 8, and `16 % 8 = 0`. -/
theorem C1_witness :
    (⟨16, 8, [0, 8]⟩ : LayoutResult).size % (⟨16, 8, [0, 8]⟩ : LayoutResult).alignment = 0 :=
  C1_size_multiple_of_alignment (.struct [⟨4, 4⟩, ⟨8, 8⟩]) ⟨16, 8, [0, 8]⟩ (Or.inr rfl)

/-- C2: sequential struct layout walks the declared order with a running
offset starting at 0: the first offset is `0` rounded up to the first
field's alignment, each later offset is the previous offset plus the
previous field's size, rounded up to the new field's alignment, and the
final size is the end of the last field rounded up to the result alignment;
in particular `Struct{[{4,4},{8,8}]}` yields offsets `[0, 8]`, size 16,
alignment 8. -/
theorem C2_sequential_struct_algorithm (fs : List FieldDescriptor) (r : LayoutResult)
    (h : computeSequentialLayout (.struct fs) = .ok r) :
    r.offsets.head? = fs.head?.map (fun f => roundUp 0 f.alignment) ∧
      List.Chain' (fun p q => q.1 = roundUp (p.1 + p.2.size) q.2.alignment)
        (r.offsets.zip fs) ∧
      (∀ p, (r.offsets.zip fs).getLast? = some p →
        r.size = roundUp (p.1 + p.2.size) r.alignment) ∧
      computeSequentialLayout (.struct [⟨4, 4⟩, ⟨8, 8⟩]) = .ok ⟨16, 8, [0, 8]⟩ := by
  obtain ⟨hv, rfl⟩ := computeSequential_struct_ok h
  refine ⟨fieldOffsets_head 0 fs, fieldOffsets_chain 0 fs, ?_, rfl⟩
  intro p hp
  have he : endOffset 0 fs = p.1 + p.2.size := endOffset_last hp
  show roundUp (endOffset 0 fs) (maxAlign fs) = roundUp (p.1 + p.2.size) (maxAlign fs)
  rw [he]

/-- Witness for C2: instantiated at `Struct{[{4,4},{8,8}]}` with result
`{size 16, alignment 8, offsets [0, 8]}`. -/
theorem C2_witness :
    (⟨16, 8, [0, 8]⟩ : LayoutResult).offsets.head? =
        ([⟨4, 4⟩, ⟨8, 8⟩] : List FieldDescriptor).head?.map
          (fun f => roundUp 0 f.alignment) ∧
      List.Chain' (fun p q => q.1 = roundUp (p.1 + p.2.size) q.2.alignment)
        ((⟨16, 8, [0, 8]⟩ : LayoutResult).offsets.zip
          ([⟨4, 4⟩, ⟨8, 8⟩] : List FieldDescriptor)) ∧
      (∀ p, ((⟨16, 8, [0, 8]⟩ : LayoutResult).offsets.zip
            ([⟨4, 4⟩, ⟨8, 8⟩] : List FieldDescriptor)).getLast? = some p →
        (⟨16, 8, [0, 8]⟩ : LayoutResult).size =
          roundUp (p.1 + p.2.size) (⟨16, 8, [0, 8]⟩ : LayoutResult).alignment) ∧
      computeSequentialLayout (.struct [⟨4, 4⟩, ⟨8, 8⟩]) = .ok ⟨16, 8, [0, 8]⟩ :=
  C2_sequential_struct_algorithm [⟨4, 4⟩, ⟨8, 8⟩] ⟨16, 8, [0, 8]⟩ rfl

/-- C3: for every non-empty valid struct, the sequential result alignment is
the maximum of the field alignments (it is one of the field alignments and
bounds all of them). -/
theorem C3_sequential_alignment_is_max_field_alignment
    (fs : List FieldDescriptor) (r : LayoutResult) (hne : fs ≠ [])
    (h : computeSequentialLayout (.struct fs) = .ok r) :
    r.alignment ∈ fs.map (fun f => f.alignment) ∧
      ∀ f ∈ fs, f.alignment ≤ r.alignment := by
  obtain ⟨hv, rfl⟩ := computeSequential_struct_ok h
  have hall := validate_all hv
  exact ⟨maxAlign_mem hne (fun f hf => validAlign_pos (hall f hf)),
         fun f hf => le_maxAlign hf⟩

/-- Witness for C3: for `Struct{[{4,4},{8,8}]}` the alignment 8 is a field
alignment and bounds both field alignments. -/
theorem C3_witness :
    (⟨16, 8, [0, 8]⟩ : LayoutResult).alignment ∈
        ([⟨4, 4⟩, ⟨8, 8⟩] : List FieldDescriptor).map (fun f => f.alignment) ∧
      ∀ f ∈ ([⟨4, 4⟩, ⟨8, 8⟩] : List FieldDescriptor),
        f.alignment ≤ (⟨16, 8, [0, 8]⟩ : LayoutResult).alignment :=
  C3_sequential_alignment_is_max_field_alignment [⟨4, 4⟩, ⟨8, 8⟩] ⟨16, 8, [0, 8]⟩
    (by decide) rfl

/-- C8: the empty struct yields size 0 and alignment 1 under both
strategies. -/
theorem C8_empty_struct_layout :
    computeDefaultLayout (.struct []) = .ok ⟨0, 1, []⟩ ∧
      computeSequentialLayout (.struct []) = .ok ⟨0, 1, []⟩ :=
  ⟨rfl, rfl⟩

/-- C10: for every valid struct, the sequential per-field offsets are each a
multiple of the corresponding field's alignment, non-decreasing in
declaration order, and the byte ranges `[offset, offset + size)` of
consecutive-ordered distinct fields are pairwise disjoint (each earlier
field ends at or before each later field starts). -/
theorem C10_sequential_offset_invariants (fs : List FieldDescriptor) (r : LayoutResult)
    (h : computeSequentialLayout (.struct fs) = .ok r) :
    (∀ p ∈ r.offsets.zip fs, p.1 % p.2.alignment = 0) ∧
      r.offsets.Pairwise (fun a b => a ≤ b) ∧
      (r.offsets.zip fs).Pairwise (fun p q => p.1 + p.2.size ≤ q.1) := by
  obtain ⟨hv, rfl⟩ := computeSequential_struct_ok h
  have hall := validate_all hv
  exact ⟨fieldOffsets_zip_div (fun f hf => validAlign_pos (hall f hf)) 0,
         fieldOffsets_pairwise_le 0 fs,
         fieldOffsets_zip_disjoint 0 fs⟩

/-- Witness for C10: instantiated at `Struct{[{4,4},{8,8}]}` with offsets
`[0, 8]`. -/
theorem C10_witness :
    (∀ p ∈ (⟨16, 8, [0, 8]⟩ : LayoutResult).offsets.zip
        ([⟨4, 4⟩, ⟨8, 8⟩] : List FieldDescriptor), p.1 % p.2.alignment = 0) ∧
      (⟨16, 8, [0, 8]⟩ : LayoutResult).offsets.Pairwise (fun a b => a ≤ b) ∧
      ((⟨16, 8, [0, 8]⟩ : LayoutResult).offsets.zip
        ([⟨4, 4⟩, ⟨8, 8⟩] : List FieldDescriptor)).Pairwise
          (fun p q => p.1 + p.2.size ≤ q.1) :=
  C10_sequential_offset_invariants [⟨4, 4⟩, ⟨8, 8⟩] ⟨16, 8, [0, 8]⟩ rfl

/-- C4: a tagged union with exactly one variant of payload size `P` and
alignment `A` under `computeDefaultLayout` yields size `roundUp P A` and
alignment `A`, with no space added for a discriminant tag (single-variant
elision); in particular one variant `{4,4}` yields size 4, alignment 4. -/
theorem C4_single_variant_elision (v d : FieldDescriptor) (r : LayoutResult)
    (h : computeDefaultLayout (.taggedUnion [v] d) = .ok r) :
    r.size = roundUp v.size v.alignment ∧ r.alignment = v.alignment ∧
      computeDefaultLayout (.taggedUnion [⟨4, 4⟩] ⟨4, 4⟩) = .ok ⟨4, 4, [0]⟩ := by
  obtain ⟨hv, rfl⟩ := computeDefault_tu_single_ok h
  exact ⟨rfl, rfl, rfl⟩

/-- Witness for C4: instantiated at one variant `{4,4}` with discriminant
`{4,4}`, whose default layout is size 4, alignment 4 (no tag). -/
theorem C4_witness :
    (⟨4, 4, [0]⟩ : LayoutResult).size =
        roundUp (⟨4, 4⟩ : FieldDescriptor).size (⟨4, 4⟩ : FieldDescriptor).alignment ∧
      (⟨4, 4, [0]⟩ : LayoutResult).alignment = (⟨4, 4⟩ : FieldDescriptor).alignment ∧
      computeDefaultLayout (.taggedUnion [⟨4, 4⟩] ⟨4, 4⟩) = .ok ⟨4, 4, [0]⟩ :=
  C4_single_variant_elision ⟨4, 4⟩ ⟨4, 4⟩ ⟨4, 4, [0]⟩ rfl

/-- C5: a tagged union with two or more variants under
`computeDefaultLayout` has size the maximal payload size rounded up to the
result alignment plus (alignment-rounded) space for the discriminant tag,
and alignment the maximum over the variant payload alignments and the
discriminant alignment; in particular 4 variants `{4,4}` with discriminant
`{4,4}` yield size 8, alignment 4. -/
theorem C5_multi_variant_default (vs : List FieldDescriptor) (d : FieldDescriptor)
    (r : LayoutResult) (hlen : 2 ≤ vs.length)
    (h : computeDefaultLayout (.taggedUnion vs d) = .ok r) :
    (∃ M ∈ vs.map (fun f => f.size), (∀ f ∈ vs, f.size ≤ M) ∧
        r.size = roundUp M r.alignment + roundUp d.size r.alignment) ∧
      (∀ f ∈ vs, f.alignment ≤ r.alignment) ∧
      d.alignment ≤ r.alignment ∧
      (r.alignment ∈ vs.map (fun f => f.alignment) ∨ r.alignment = d.alignment) ∧
      computeDefaultLayout (.taggedUnion [⟨4, 4⟩, ⟨4, 4⟩, ⟨4, 4⟩, ⟨4, 4⟩] ⟨4, 4⟩) =
        .ok ⟨8, 4, []⟩ := by
  obtain ⟨hv, rfl⟩ := computeDefault_tu_multi_ok hlen h
  have hne : vs ≠ [] := validate_tu_ne_nil hv
  have hall := validate_all hv
  have hpos : ∀ f ∈ vs, 1 ≤ f.alignment := fun f hf =>
    validAlign_pos (hall f (List.mem_cons_of_mem _ hf))
  refine ⟨⟨maxSize vs, maxSize_mem hne, fun f hf => le_maxSize hf, rfl⟩,
          fun f hf => le_trans (le_maxAlign hf) (Nat.le_max_left _ _),
          Nat.le_max_right _ _, ?_, rfl⟩
  rcases Nat.le_total (maxAlign vs) d.alignment with hle | hle
  · right
    exact Nat.max_eq_right hle
  · left
    show max (maxAlign vs) d.alignment ∈ _
    rw [Nat.max_eq_left hle]
    exact maxAlign_mem hne hpos

/-- Witness for C5: instantiated at the 4-variant `{4,4}` tagged union with
discriminant `{4,4}` and result `{size 8, alignment 4}`. -/
theorem C5_witness :
    (∃ M ∈ ([⟨4, 4⟩, ⟨4, 4⟩, ⟨4, 4⟩, ⟨4, 4⟩] : List FieldDescriptor).map
          (fun f => f.size),
        (∀ f ∈ ([⟨4, 4⟩, ⟨4, 4⟩, ⟨4, 4⟩, ⟨4, 4⟩] : List FieldDescriptor), f.size ≤ M) ∧
        (⟨8, 4, []⟩ : LayoutResult).size =
          roundUp M (⟨8, 4, []⟩ : LayoutResult).alignment +
            roundUp (⟨4, 4⟩ : FieldDescriptor).size
              (⟨8, 4, []⟩ : LayoutResult).alignment) ∧
      (∀ f ∈ ([⟨4, 4⟩, ⟨4, 4⟩, ⟨4, 4⟩, ⟨4, 4⟩] : List FieldDescriptor),
        f.alignment ≤ (⟨8, 4, []⟩ : LayoutResult).alignment) ∧
      (⟨4, 4⟩ : FieldDescriptor).alignment ≤ (⟨8, 4, []⟩ : LayoutResult).alignment ∧
      ((⟨8, 4, []⟩ : LayoutResult).alignment ∈
          ([⟨4, 4⟩, ⟨4, 4⟩, ⟨4, 4⟩, ⟨4, 4⟩] : List FieldDescriptor).map
            (fun f => f.alignment) ∨
        (⟨8, 4, []⟩ : LayoutResult).alignment = (⟨4, 4⟩ : FieldDescriptor).alignment) ∧
      computeDefaultLayout (.taggedUnion [⟨4, 4⟩, ⟨4, 4⟩, ⟨4, 4⟩, ⟨4, 4⟩] ⟨4, 4⟩) =
        .ok ⟨8, 4, []⟩ :=
  C5_multi_variant_default [⟨4, 4⟩, ⟨4, 4⟩, ⟨4, 4⟩, ⟨4, 4⟩] ⟨4, 4⟩ ⟨8, 4, []⟩
    (by decide) rfl

/-- C6: the sequential layout of a tagged union places the discriminant
first (offset 0, caller-supplied size/alignment), then a union region whose
size is the maximal variant payload size and whose alignment is the maximal
variant payload alignment, and rounds the total up to the result alignment;
the discriminant is never elided: whenever its size is positive it occupies
the bytes before the union region, even with exactly one variant. -/
theorem C6_sequential_tagged_union (vs : List FieldDescriptor) (d : FieldDescriptor)
    (r : LayoutResult) (h : computeSequentialLayout (.taggedUnion vs d) = .ok r) :
    ∃ U A, U ∈ vs.map (fun f => f.size) ∧ (∀ f ∈ vs, f.size ≤ U) ∧
      A ∈ vs.map (fun f => f.alignment) ∧ (∀ f ∈ vs, f.alignment ≤ A) ∧
      r.offsets = [0, roundUp d.size A] ∧
      r.alignment = max d.alignment A ∧
      r.size = roundUp (roundUp d.size A + U) r.alignment ∧
      (0 < d.size → d.size ≤ roundUp d.size A ∧ 0 < roundUp d.size A) := by
  obtain ⟨hv, rfl⟩ := computeSequential_tu_ok h
  have hne := validate_tu_ne_nil hv
  have hall := validate_all hv
  have hpos : ∀ f ∈ vs, 1 ≤ f.alignment := fun f hf =>
    validAlign_pos (hall f (List.mem_cons_of_mem _ hf))
  refine ⟨maxSize vs, maxAlign vs, maxSize_mem hne, fun f hf => le_maxSize hf,
          maxAlign_mem hne hpos, fun f hf => le_maxAlign hf, ?_, ?_, ?_, ?_⟩
  · show fieldOffsets 0 [d, ⟨maxSize vs, maxAlign vs⟩] = [0, roundUp d.size (maxAlign vs)]
    simp [fieldOffsets, roundUp_zero]
  · show maxAlign [d, ⟨maxSize vs, maxAlign vs⟩] = max d.alignment (maxAlign vs)
    have h1 := one_le_maxAlign vs
    simp only [maxAlign]
    rw [Nat.max_eq_left h1]
  · show roundUp (endOffset 0 [d, ⟨maxSize vs, maxAlign vs⟩])
        (maxAlign [d, ⟨maxSize vs, maxAlign vs⟩]) =
      roundUp (roundUp d.size (maxAlign vs) + maxSize vs)
        (maxAlign [d, ⟨maxSize vs, maxAlign vs⟩])
    congr 1
    simp [endOffset, roundUp_zero]
  · intro hd
    have h1 := le_roundUp d.size (maxAlign vs)
    exact ⟨h1, by omega⟩

/-- Witness for C6: instantiated at the one-variant tagged union with
payload `{4,4}` and discriminant `{4,4}`, whose sequential layout is
offsets `[0, 4]`, size 8, alignment 4 — the tag occupies bytes 0–3. -/
theorem C6_witness :
    ∃ U A, U ∈ ([⟨4, 4⟩] : List FieldDescriptor).map (fun f => f.size) ∧
      (∀ f ∈ ([⟨4, 4⟩] : List FieldDescriptor), f.size ≤ U) ∧
      A ∈ ([⟨4, 4⟩] : List FieldDescriptor).map (fun f => f.alignment) ∧
      (∀ f ∈ ([⟨4, 4⟩] : List FieldDescriptor), f.alignment ≤ A) ∧
      (⟨8, 4, [0, 4]⟩ : LayoutResult).offsets =
        [0, roundUp (⟨4, 4⟩ : FieldDescriptor).size A] ∧
      (⟨8, 4, [0, 4]⟩ : LayoutResult).alignment =
        max (⟨4, 4⟩ : FieldDescriptor).alignment A ∧
      (⟨8, 4, [0, 4]⟩ : LayoutResult).size =
        roundUp (roundUp (⟨4, 4⟩ : FieldDescriptor).size A + U)
          (⟨8, 4, [0, 4]⟩ : LayoutResult).alignment ∧
      (0 < (⟨4, 4⟩ : FieldDescriptor).size →
        (⟨4, 4⟩ : FieldDescriptor).size ≤
            roundUp (⟨4, 4⟩ : FieldDescriptor).size A ∧
          0 < roundUp (⟨4, 4⟩ : FieldDescriptor).size A) :=
  C6_sequential_tagged_union [⟨4, 4⟩] ⟨4, 4⟩ ⟨8, 4, [0, 4]⟩ rfl

/-- C7: for every non-empty valid struct, `computeDefaultLayout` returns
the maximal field alignment as alignment, and a size that is at least the
sum of the field sizes and is the smallest multiple of the result alignment
large enough to hold all fields under the reference packing (fields sorted
by descending alignment, laid out sequentially). -/
theorem C7_default_struct_size_bounds (fs : List FieldDescriptor) (r : LayoutResult)
    (hne : fs ≠ []) (h : computeDefaultLayout (.struct fs) = .ok r) :
    (r.alignment ∈ fs.map (fun f => f.alignment) ∧
        ∀ f ∈ fs, f.alignment ≤ r.alignment) ∧
      sumSizes fs ≤ r.size ∧
      r.size % r.alignment = 0 ∧
      endOffset 0 (sortByAlignDesc fs) ≤ r.size ∧
      (∀ m, m % r.alignment = 0 → endOffset 0 (sortByAlignDesc fs) ≤ m →
        r.size ≤ m) := by
  obtain ⟨hv, rfl⟩ := computeDefault_struct_ok h
  have hall := validate_all hv
  have hpos : (0 : Nat) < maxAlign fs := one_le_maxAlign fs
  refine ⟨⟨maxAlign_mem hne (fun f hf => validAlign_pos (hall f hf)),
           fun f hf => le_maxAlign hf⟩, ?_, roundUp_mod hpos _, le_roundUp _ _, ?_⟩
  · have h1 := le_endOffset 0 (sortByAlignDesc fs)
    have h2 := sumSizes_sort fs
    have h3 := le_roundUp (endOffset 0 (sortByAlignDesc fs)) (maxAlign fs)
    show sumSizes fs ≤ roundUp (endOffset 0 (sortByAlignDesc fs)) (maxAlign fs)
    omega
  · intro m hm hge
    exact roundUp_min hpos hm hge

/-- Witness for C7: instantiated at `Struct{[{4,4},{8,8}]}`, whose default
(reference-packed) layout is size 16, alignment 8. -/
theorem C7_witness :
    ((⟨16, 8, [0, 8]⟩ : LayoutResult).alignment ∈
          ([⟨4, 4⟩, ⟨8, 8⟩] : List FieldDescriptor).map (fun f => f.alignment) ∧
        ∀ f ∈ ([⟨4, 4⟩, ⟨8, 8⟩] : List FieldDescriptor),
          f.alignment ≤ (⟨16, 8, [0, 8]⟩ : LayoutResult).alignment) ∧
      sumSizes [⟨4, 4⟩, ⟨8, 8⟩] ≤ (⟨16, 8, [0, 8]⟩ : LayoutResult).size ∧
      (⟨16, 8, [0, 8]⟩ : LayoutResult).size %
          (⟨16, 8, [0, 8]⟩ : LayoutResult).alignment = 0 ∧
      endOffset 0 (sortByAlignDesc [⟨4, 4⟩, ⟨8, 8⟩]) ≤
          (⟨16, 8, [0, 8]⟩ : LayoutResult).size ∧
      (∀ m, m % (⟨16, 8, [0, 8]⟩ : LayoutResult).alignment = 0 →
        endOffset 0 (sortByAlignDesc [⟨4, 4⟩, ⟨8, 8⟩]) ≤ m →
          (⟨16, 8, [0, 8]⟩ : LayoutResult).size ≤ m) :=
  C7_default_struct_size_bounds [⟨4, 4⟩, ⟨8, 8⟩] ⟨16, 8, [0, 8]⟩ (by decide) rfl

/-- C9: both strategies return `InvalidDescriptor` exactly when some field
descriptor (the tagged-union discriminant included) has alignment 0 or a
non-power-of-2 alignment, or the descriptor is a tagged union with zero
variants; the check is the pure `validate` pass evaluated before any
computation, and, the functions being pure, the error is returned directly
with nothing retried and no state touched. -/
theorem C9_invalid_descriptor_iff (D : TypeDescriptor) :
    (computeDefaultLayout D = .error .invalidDescriptor ↔
        ((∃ f ∈ allFieldDescriptors D, f.alignment = 0 ∨ ¬ ∃ k, f.alignment = 2 ^ k) ∨
          ∃ d, D = .taggedUnion [] d)) ∧
      (computeSequentialLayout D = .error .invalidDescriptor ↔
        ((∃ f ∈ allFieldDescriptors D, f.alignment = 0 ∨ ¬ ∃ k, f.alignment = 2 ^ k) ∨
          ∃ d, D = .taggedUnion [] d)) :=
  ⟨(computeDefault_error_iff D).trans (validate_false_iff D),
   (computeSequential_error_iff D).trans (validate_false_iff D)⟩
